import Mathlib

/-!
Shallow embedding of `source/noisy_average.cpp`: a differentially-private
noisy-average pipeline.  Lines of the input file are modelled as `List Char`
(the byte content of a C++ `std::string`); the C++ `double` computations are
modelled with exact arithmetic (`ℚ` for the deterministic statistics, `ℝ`
for the Laplace sampler, whose inverse-CDF transform uses `Real.log`); the
Mersenne-Twister uniform source is modelled as an abstract stream
`u : ℕ → ℝ` together with an explicit cursor that each draw advances.
-/

namespace NoisyAverage

/-- C locale `std::isspace` on an unsigned char, restricted to the
whitespace characters: space, tab, newline, vertical tab, form feed,
carriage return. -/
def isSpaceC (c : Char) : Bool :=
  c == ' ' || c == '\t' || c == '\n' || c == '\x0B' || c == '\x0C' || c == '\r'

/-- Helper `ltrim`: erase leading whitespace (noisy_average.cpp lines 8-13). -/
def ltrimC (l : List Char) : List Char := l.dropWhile isSpaceC

/-- Helper `rtrim`: erase trailing whitespace (noisy_average.cpp lines 14-19). -/
def rtrimC (l : List Char) : List Char := (l.reverse.dropWhile isSpaceC).reverse

/-- Helper `trim`, with `trim(s) = ltrim(rtrim(s))` (noisy_average.cpp line 20). -/
def trimC (l : List Char) : List Char := ltrimC (rtrimC l)

/-- Constant `INT_MIN` for a 32-bit `int`, `-2 ^ 31`. -/
def INT_MIN : Int := -2147483648

/-- Constant `INT_MAX` for a 32-bit `int`, `2 ^ 31 - 1`. -/
def INT_MAX : Int := 2147483647

/-- Value of a list of decimal digit characters. -/
def natOfDigits (ds : List Char) : Nat :=
  ds.foldl (fun a c => a * 10 + (c.toNat - 48)) 0

/-- Model of `std::stoi` (base 10) on a `std::string`: skip leading whitespace, an
optional single sign, then a maximal non-empty run of decimal digits
(trailing non-digit characters are ignored); failure (`none`) when there is
no digit or the value does not fit in a 32-bit `int` (C++ throws
`std::invalid_argument` / `std::out_of_range`, which the caller catches and
treats as \x22skip this line\x22). -/
def stoiC (l : List Char) : Option Int :=
  let l1 := l.dropWhile isSpaceC
  let sl2 : Int × List Char :=
    match l1 with
    | '-' :: r => (-1, r)
    | '+' :: r => (1, r)
    | _ => (1, l1)
  let ds := sl2.2.takeWhile (fun c => c.isDigit)
  if ds.isEmpty then none
  else
    let v : Int := sl2.1 * (natOfDigits ds : Int)
    if v < INT_MIN ∨ INT_MAX < v then none else some v

/-- Age extraction applied to one raw line, shared verbatim between
`parse_records` (lines 50-63) and the inline loop of
`run_analysis_on_file` (lines 138-148): trim the line, skip it if empty,
take the segment before the first comma (`getline(ss, token, ',')`), trim
it and run `stoi` on it. -/
def parseAge (line : List Char) : Option Int :=
  let t := trimC line
  if t.isEmpty then none
  else stoiC (trimC (t.takeWhile (fun c => !(c == ','))))

/-- The C++ `struct Record \x7b int idx; int age; string line; \x7d` (line 34). -/
structure Record where
  idx : Nat
  age : Int
  line : List Char
deriving DecidableEq, Repr

/-- The loop body of `parse_records` with the loop counter `i` made
explicit: each line either contributes the record `{i, age, line}` or is
skipped. -/
def parseRecAux (i : Nat) : List (List Char) → List Record
  | [] => []
  | s :: rest =>
    match parseAge s with
    | some a => ⟨i, a, s⟩ :: parseRecAux (i + 1) rest
    | none => parseRecAux (i + 1) rest

/-- Function `parse_records` (noisy_average.cpp lines 47-66). -/
def parse_records (lines : List (List Char)) : List Record :=
  parseRecAux 0 lines

/-- Value `max_age`: fold of `max` over the parsed records starting from
`INT_MIN` (lines 84-88). -/
def maxAgeR (records : List Record) : Int :=
  records.foldl (fun m r => max m r.age) INT_MIN

/-- Value `min_age`: fold of `min` over the parsed records starting from
`INT_MAX` (lines 84-88). -/
def minAgeR (records : List Record) : Int :=
  records.foldl (fun m r => min m r.age) INT_MAX

/-- Value `oldest_idx`: starts at `-1`, set to the index of the first record (in
file order) whose age equals `max_age` (lines 90-94). -/
def oldestIdxR (records : List Record) : Int :=
  ((records.find? (fun r => r.age == maxAgeR records)).map
    (fun r => (r.idx : Int))).getD (-1)

/-- Value `youngest_idx`: the index of the first record whose age equals
`min_age` (lines 90-94). -/
def youngestIdxR (records : List Record) : Int :=
  ((records.find? (fun r => r.age == minAgeR records)).map
    (fun r => (r.idx : Int))).getD (-1)

/-- The writing loops of `write_filtered_files` (lines 100-122): emit every
line whose (int-cast) position differs from the sentinel index `k`. -/
def removeIdxInt (k : Int) : Nat → List (List Char) → List (List Char)
  | _, [] => []
  | i, s :: rest =>
    if (i : Int) = k then removeIdxInt k (i + 1) rest
    else s :: removeIdxInt k (i + 1) rest

/-- The three variant files produced by `write_filtered_files`. -/
structure Variants where
  minusOldest : List (List Char)
  minusAge26 : List (List Char)
  minusYoungest : List (List Char)
deriving DecidableEq, Repr

/-- Function `write_filtered_files` (noisy_average.cpp lines 72-125): `none` models
the two early returns (empty file, no parseable records: a warning is
printed and no variant file is written). -/
def write_filtered_files (lines : List (List Char)) : Option Variants :=
  if lines.isEmpty then none
  else
    let records := parse_records lines
    if records.isEmpty then none
    else
      some
        { minusOldest := removeIdxInt (oldestIdxR records) 0 lines
          minusAge26 := (records.filter (fun r => !(r.age == 26))).map (fun r => r.line)
          minusYoungest := removeIdxInt (youngestIdxR records) 0 lines }

/-- Function `sample_laplace` (noisy_average.cpp lines 23-32): inverse-CDF Laplace
noise for scale `b` from one uniform draw `u`. -/
noncomputable def sample_laplace (scale u : ℝ) : ℝ :=
  if u = 1 / 2 then 0
  else if u < 1 / 2 then scale * Real.log (2 * u)
  else -scale * Real.log (2 * (1 - u))

/-- The subset of parsed ages satisfying `age > 25`, collected by the read
loop of `run_analysis_on_file` (lines 135-149). -/
def agesSubset (lines : List (List Char)) : List Int :=
  lines.filterMap (fun s =>
    (parseAge s).bind (fun a => if 25 < a then some a else none))

/-- The deterministic statistics of `run_analysis_on_file`
(lines 157-168). -/
structure Stats where
  m : Nat
  avg : ℚ
  minAge : Int
  maxAge : Int
  sensitivity : ℚ
  scale : ℚ
deriving DecidableEq, Repr

/-- Deterministic part of `run_analysis_on_file` (lines 152-168): `none`
models the `return false` on an empty qualifying subset (lines 152-155);
otherwise `m`, `avg = sum / m`, observed extrema,
`sensitivity = (max_age - min_age) / max(1, m)` and
`scale = sensitivity / epsilon`. -/
def analyze (lines : List (List Char)) (epsilon : ℚ) : Option Stats :=
  let ages := agesSubset lines
  if ages.isEmpty then none
  else
    let m := ages.length
    let sum : Int := ages.foldl (fun s a => s + a) 0
    let mn := ages.foldl (fun b a => min b a) INT_MAX
    let mx := ages.foldl (fun b a => max b a) INT_MIN
    let sens : ℚ := ((mx - mn : Int) : ℚ) / ((max 1 (m : Int) : Int) : ℚ)
    some ⟨m, (sum : ℚ) / (m : ℚ), mn, mx, sens, sens / epsilon⟩

/-- Result of one run of `run_analysis_on_file`: the statistics plus the
`trials` noisy releases written to the output file, in draw order. -/
structure AnalysisResult where
  stats : Stats
  releases : List ℝ

/-- Function `run_analysis_on_file` (noisy_average.cpp lines 128-185) against a
uniform stream `u` with cursor `pos`: on success the release loop
(lines 176-180) consumes draws `u pos, …, u (pos + trials - 1)` and the
cursor advances by `trials`; on failure nothing is consumed. -/
noncomputable def run_analysis_on_file (lines : List (List Char)) (epsilon : ℚ)
    (trials : Nat) (u : ℕ → ℝ) (pos : Nat) : Option AnalysisResult × Nat :=
  match analyze lines epsilon with
  | none => (none, pos)
  | some st =>
      (some ⟨st, (List.range trials).map
          (fun i => (st.avg : ℝ) + sample_laplace (st.scale : ℝ) (u (pos + i)))⟩,
       pos + trials)

/-- The four datasets analysed by `main` (lines 227-230), in call order:
the original file, then the three variant files; a variant file that
`write_filtered_files` did not produce is a missing file (`none`), on which
`run_analysis_on_file` fails at `open` (lines 129-133). -/
def datasetsOf (lines : List (List Char)) : List (Option (List (List Char))) :=
  match write_filtered_files lines with
  | some v => [some lines, some v.minusOldest, some v.minusAge26, some v.minusYoungest]
  | none => [some lines, none, none, none]

/-- The analysis loop of `main`: each dataset is analysed in order, all
sharing one uniform stream `u` whose cursor is threaded from call to call
(the single `std::mt19937_64 rng` of lines 218-219, seeded once and passed
by reference to every call). -/
noncomputable def runAll (epsilon : ℚ) (trials : Nat) (u : ℕ → ℝ) :
    List (Option (List (List Char))) → Nat → List (Option AnalysisResult)
  | [], _ => []
  | d :: ds, pos =>
    match d with
    | none => none :: runAll epsilon trials u ds pos
    | some l =>
        let rq := run_analysis_on_file l epsilon trials u pos
        rq.1 :: runAll epsilon trials u ds rq.2

/-- Function `main` (lines 187-233) restricted to its core: build the variant files
once, then run the four analyses against the single shared random
stream. -/
noncomputable def pipelineResults (lines : List (List Char)) (epsilon : ℚ)
    (trials : Nat) (u : ℕ → ℝ) : List (Option AnalysisResult) :=
  runAll epsilon trials u (datasetsOf lines) 0

/-- Specification-side notion used to state the variant-builder claims: the
position of the first line (in file order) whose parsed age is exactly
`M`. -/
def firstIdxWith (M : Int) : List (List Char) → Option Nat
  | [] => none
  | s :: rest =>
    if parseAge s = some M then some 0
    else (firstIdxWith M rest).map (fun j => j + 1)

/-- The four-line example input of the specification. -/
def exLines : List (List Char) := ["30,x".data, "40,y".data, "20,z".data, "26,w".data]

/-- Concrete input used by witnesses: two qualifying records. -/
def exA : List (List Char) := ["30,a".data, "40,b".data]

/-- Concrete input used by witnesses: a max tie at lines 1 and 2, a
malformed line, and a min tie at lines 0 and 4. -/
def exB : List (List Char) :=
  ["10,a".data, "50,b".data, "50,c".data, "zzz".data, "10,d".data, "26,e".data]

/-- Concrete input used by witnesses: one record below the predicate
threshold. -/
def exD : List (List Char) := ["20,a".data]

/-- Concrete input used by witnesses: no parseable record at all. -/
def exE : List (List Char) := ["x,y".data, "  ".data]

/-- Concrete input used by witnesses: all qualifying ages equal. -/
def exF : List (List Char) := ["30,a".data, "30,b".data, "20,c".data]

/-! ### Basic lemmas about the parser -/

theorem stoiC_bounds {l : List Char} {a : Int} (h : stoiC l = some a) :
    INT_MIN ≤ a ∧ a ≤ INT_MAX := by
  simp only [stoiC] at h
  split at h
  · exact absurd h (by simp)
  · split at h
    · exact absurd h (by simp)
    · rename_i hguard
      push_neg at hguard
      cases h
      exact ⟨hguard.1, hguard.2⟩

theorem parseAge_eq_some_iff {s : List Char} {a : Int} :
    parseAge s = some a ↔
      (trimC s).isEmpty = false ∧
        stoiC (trimC ((trimC s).takeWhile (fun c => !(c == ',')))) = some a := by
  by_cases h : (trimC s).isEmpty <;> simp [parseAge, h]

theorem parseAge_bounds {s : List Char} {a : Int} (h : parseAge s = some a) :
    INT_MIN ≤ a ∧ a ≤ INT_MAX :=
  stoiC_bounds (parseAge_eq_some_iff.mp h).2

theorem parseAge_of_trim_empty {s : List Char} (h : (trimC s).isEmpty = true) :
    parseAge s = none := by
  simp [parseAge, h]

theorem length_parseRecAux (n : Nat) (lines : List (List Char)) :
    (parseRecAux n lines).length ≤ lines.length := by
  induction lines generalizing n with
  | nil => simp [parseRecAux]
  | cons s rest ih =>
    cases hp : parseAge s <;> simp only [parseRecAux, hp, List.length_cons]
    · exact Nat.le_succ_of_le (ih (n + 1))
    · simpa using ih (n + 1)

theorem mem_parseRecAux {lines : List (List Char)} {n : Nat} {r : Record}
    (h : r ∈ parseRecAux n lines) :
    ∃ j, r.idx = n + j ∧ lines[j]? = some r.line ∧ parseAge r.line = some r.age := by
  induction lines generalizing n with
  | nil => simp [parseRecAux] at h
  | cons s rest ih =>
    cases hp : parseAge s with
    | none =>
      simp only [parseRecAux, hp] at h
      obtain ⟨j, hj1, hj2, hj3⟩ := ih h
      exact ⟨j + 1, by omega, by simpa using hj2, hj3⟩
    | some a =>
      simp only [parseRecAux, hp, List.mem_cons] at h
      rcases h with h | h
      · subst h
        exact ⟨0, by simp, by simp, by simpa using hp⟩
      · obtain ⟨j, hj1, hj2, hj3⟩ := ih h
        exact ⟨j + 1, by omega, by simpa using hj2, hj3⟩

theorem parseRecAux_ne_nil {lines : List (List Char)} {s : List Char} {a : Int}
    (hs : s ∈ lines) (hp : parseAge s = some a) :
    ∀ n, parseRecAux n lines ≠ [] := by
  induction lines with
  | nil => simp at hs
  | cons t rest ih =>
    intro n
    rcases List.mem_cons.mp hs with h | h
    · subst h
      simp [parseRecAux, hp]
    · cases hq : parseAge t <;> simp only [parseRecAux, hq]
      · exact ih h (n + 1)
      · simp

theorem agesSubset_nil_of_parse_nil {lines : List (List Char)}
    (h : parse_records lines = []) : agesSubset lines = [] := by
  by_contra hne
  obtain ⟨a, ha⟩ := List.exists_mem_of_ne_nil _ hne
  obtain ⟨s, hs, hsa⟩ := List.mem_filterMap.mp ha
  obtain ⟨b, hb, _⟩ := Option.bind_eq_some.mp hsa
  exact parseRecAux_ne_nil hs hb 0 h

theorem mem_agesSubset {lines : List (List Char)} {a : Int} :
    a ∈ agesSubset lines ↔ ∃ s ∈ lines, parseAge s = some a ∧ 25 < a := by
  simp only [agesSubset, List.mem_filterMap, Option.bind_eq_some]
  constructor
  · rintro ⟨s, hs, b, hb, hba⟩
    split at hba
    · cases hba
      exact ⟨s, hs, hb, by assumption⟩
    · cases hba
  · rintro ⟨s, hs, hp, hgt⟩
    exact ⟨s, hs, a, hp, by simp [hgt]⟩

/-! ### Fold lemmas for the running max / min -/

theorem foldl_max_init_le (l : List Int) (c : Int) : c ≤ l.foldl max c := by
  induction l generalizing c with
  | nil => simp
  | cons a l ih => exact le_trans (le_max_left c a) (ih (max c a))

theorem le_foldl_max {l : List Int} {a : Int} (c : Int) (h : a ∈ l) :
    a ≤ l.foldl max c := by
  induction l generalizing c with
  | nil => simp at h
  | cons b l ih =>
    rcases List.mem_cons.mp h with h | h
    · subst h
      exact le_trans (le_max_right c a) (foldl_max_init_le l (max c a))
    · simpa using ih (max c b) h

theorem foldl_max_mem_or (l : List Int) (c : Int) :
    l.foldl max c = c ∨ l.foldl max c ∈ l := by
  induction l generalizing c with
  | nil => simp
  | cons a l ih =>
    rcases ih (max c a) with h | h
    · rcases max_choice c a with hm | hm
      · left
        simpa [hm] using h
      · right
        rw [List.foldl_cons, h, hm]
        exact List.mem_cons_self a l
    · right
      exact List.mem_cons_of_mem a h

theorem foldl_min_le_init (l : List Int) (c : Int) : l.foldl min c ≤ c := by
  induction l generalizing c with
  | nil => simp
  | cons a l ih => exact le_trans (ih (min c a)) (min_le_left c a)

theorem foldl_min_le {l : List Int} {a : Int} (c : Int) (h : a ∈ l) :
    l.foldl min c ≤ a := by
  induction l generalizing c with
  | nil => simp at h
  | cons b l ih =>
    rcases List.mem_cons.mp h with h | h
    · subst h
      exact le_trans (foldl_min_le_init l (min c a)) (min_le_right c a)
    · simpa using ih (min c b) h

theorem foldl_min_mem_or (l : List Int) (c : Int) :
    l.foldl min c = c ∨ l.foldl min c ∈ l := by
  induction l generalizing c with
  | nil => simp
  | cons a l ih =>
    rcases ih (min c a) with h | h
    · rcases min_choice c a with hm | hm
      · left
        simpa [hm] using h
      · right
        rw [List.foldl_cons, h, hm]
        exact List.mem_cons_self a l
    · right
      exact List.mem_cons_of_mem a h

/-! ### The first index attaining an extremum, and index-based removal -/

theorem firstIdxWith_spec {M : Int} {lines : List (List Char)} {k : Nat}
    (h : firstIdxWith M lines = some k) :
    k < lines.length ∧
      (∃ s, lines[k]? = some s ∧ parseAge s = some M) ∧
      ∀ j, j < k → ∀ s, lines[j]? = some s → parseAge s ≠ some M := by
  induction lines generalizing k with
  | nil => simp [firstIdxWith] at h
  | cons t rest ih =>
    by_cases hp : parseAge t = some M
    · simp only [firstIdxWith, if_pos hp] at h
      cases h
      exact ⟨by simp, ⟨t, by simp, hp⟩, by omega⟩
    · simp only [firstIdxWith, if_neg hp] at h
      obtain ⟨j, hj, rfl⟩ : ∃ j, firstIdxWith M rest = some j ∧ j + 1 = k := by
        cases hfw : firstIdxWith M rest with
        | none => rw [hfw] at h; simp at h
        | some j => rw [hfw] at h; simp at h; exact ⟨j, rfl, h⟩
      obtain ⟨h1, ⟨s, hs1, hs2⟩, h3⟩ := ih hj
      refine ⟨by simpa using h1, ⟨s, by simpa using hs1, hs2⟩, ?_⟩
      intro i hi w hw
      match i with
      | 0 =>
        simp only [List.getElem?_cons_zero, Option.some.injEq] at hw
        subst hw
        exact hp
      | i + 1 =>
        exact h3 i (by omega) w (by simpa using hw)

theorem find?_parseRecAux (n : Nat) (lines : List (List Char)) (M : Int) :
    (parseRecAux n lines).find? (fun r => r.age == M) =
      (firstIdxWith M lines).bind
        (fun j => (lines[j]?).map (fun s => ⟨n + j, M, s⟩)) := by
  induction lines generalizing n with
  | nil => simp [parseRecAux, firstIdxWith]
  | cons s rest ih =>
    have hfirst : firstIdxWith M (s :: rest) =
        if parseAge s = some M then some 0
        else (firstIdxWith M rest).map (fun j => j + 1) := by
      simp only [firstIdxWith]
    cases hp : parseAge s with
    | none =>
      have hne : ¬ parseAge s = some M := by simp [hp]
      have hrec : parseRecAux n (s :: rest) = parseRecAux (n + 1) rest := by
        simp only [parseRecAux, hp]
      rw [hrec, ih (n + 1), hfirst, if_neg hne]
      cases hfw : firstIdxWith M rest with
      | none => simp
      | some j => simp [Nat.add_assoc, Nat.add_comm 1 j]
    | some a =>
      have hrec : parseRecAux n (s :: rest) = ⟨n, a, s⟩ :: parseRecAux (n + 1) rest := by
        simp only [parseRecAux, hp]
      by_cases ha : a = M
      · subst ha
        rw [hrec, List.find?_cons_of_pos _ (by simp), hfirst, if_pos hp]
        simp
      · have hne : ¬ parseAge s = some M := by simp [hp, ha]
        rw [hrec, List.find?_cons_of_neg _ (by simp [ha]), ih (n + 1), hfirst, if_neg hne]
        cases hfw : firstIdxWith M rest with
        | none => simp
        | some j => simp [Nat.add_assoc, Nat.add_comm 1 j]

theorem removeIdxInt_of_lt {k : Int} (lines : List (List Char)) (n : Nat)
    (h : k < (n : Int)) : removeIdxInt k n lines = lines := by
  induction lines generalizing n with
  | nil => rfl
  | cons s rest ih =>
    rw [removeIdxInt, if_neg (by omega)]
    rw [ih (n + 1) (by push_cast; omega)]

theorem removeIdxInt_eq_eraseIdx (lines : List (List Char)) (n k : Nat) :
    removeIdxInt ((n + k : Nat) : Int) n lines = lines.eraseIdx k := by
  induction lines generalizing n k with
  | nil => rfl
  | cons s rest ih =>
    match k with
    | 0 =>
      rw [removeIdxInt, if_pos (by push_cast; omega)]
      rw [List.eraseIdx_cons_zero]
      exact removeIdxInt_of_lt rest (n + 1) (by push_cast; omega)
    | k + 1 =>
      rw [removeIdxInt, if_neg (by push_cast; omega), List.eraseIdx_cons_succ]
      have := ih (n + 1) k
      rw [show ((n + 1) + k : Nat) = n + (k + 1) by omega] at this
      rw [this]

/-! ### Lemmas about the analysis statistics -/

theorem analyze_isSome {lines : List (List Char)} (epsilon : ℚ)
    (h : agesSubset lines ≠ []) : ∃ st, analyze lines epsilon = some st := by
  simp only [analyze]
  rw [if_neg (by simpa [List.isEmpty_iff] using h)]
  exact ⟨_, rfl⟩

theorem analyze_spec {lines : List (List Char)} {epsilon : ℚ} {st : Stats}
    (h : analyze lines epsilon = some st) :
    agesSubset lines ≠ [] ∧
    st.m = (agesSubset lines).length ∧
    st.avg = (((agesSubset lines).foldl (fun s a => s + a) 0 : Int) : ℚ) / (st.m : ℚ) ∧
    st.minAge = (agesSubset lines).foldl (fun b a => min b a) INT_MAX ∧
    st.maxAge = (agesSubset lines).foldl (fun b a => max b a) INT_MIN ∧
    st.sensitivity = ((st.maxAge - st.minAge : Int) : ℚ) / ((max 1 (st.m : Int) : Int) : ℚ) ∧
    st.scale = st.sensitivity / epsilon := by
  simp only [analyze] at h
  split at h
  · cases h
  · rename_i hne
    cases h
    exact ⟨by simpa [List.isEmpty_iff] using hne, rfl, rfl, rfl, rfl, rfl, rfl⟩

theorem mem_agesSubset_bounds {lines : List (List Char)} {a : Int}
    (ha : a ∈ agesSubset lines) : INT_MIN ≤ a ∧ a ≤ INT_MAX := by
  obtain ⟨s, -, hp, -⟩ := mem_agesSubset.mp ha
  exact parseAge_bounds hp

theorem foldl_max_attained {l : List Int} (hne : l ≠ [])
    (hbd : ∀ a ∈ l, INT_MIN ≤ a) : l.foldl max INT_MIN ∈ l := by
  rcases foldl_max_mem_or l INT_MIN with h | h
  · obtain ⟨a, ha⟩ := List.exists_mem_of_ne_nil l hne
    have h1 : a ≤ l.foldl max INT_MIN := le_foldl_max INT_MIN ha
    have h2 : a = INT_MIN := le_antisymm (h ▸ h1) (hbd a ha)
    rw [h, ← h2]
    exact ha
  · exact h

theorem foldl_min_attained {l : List Int} (hne : l ≠ [])
    (hbd : ∀ a ∈ l, a ≤ INT_MAX) : l.foldl min INT_MAX ∈ l := by
  rcases foldl_min_mem_or l INT_MAX with h | h
  · obtain ⟨a, ha⟩ := List.exists_mem_of_ne_nil l hne
    have h1 : l.foldl min INT_MAX ≤ a := foldl_min_le INT_MAX ha
    have h2 : a = INT_MAX := le_antisymm (hbd a ha) (h ▸ h1)
    rw [h, ← h2]
    exact ha
  · exact h

theorem sample_laplace_zero (u : ℝ) : sample_laplace 0 u = 0 := by
  simp only [sample_laplace]
  split
  · rfl
  · split <;> simp

/-! ### Claim theorems -/

/-- C1: for every scale `b` and uniform draw `u`, `sample_laplace` returns
exactly `b * ln (2 u)` when `u < 0.5`, exactly `-b * ln (2 (1 - u))` when
`u > 0.5`, and exactly `0` when `u = 0.5` (the midpoint is special-cased,
so no `log 0` singularity arises there). -/
theorem laplace_inverse_cdf_cases (b u : ℝ) :
    (u < 1 / 2 → sample_laplace b u = b * Real.log (2 * u)) ∧
    (1 / 2 < u → sample_laplace b u = -b * Real.log (2 * (1 - u))) ∧
    (u = 1 / 2 → sample_laplace b u = 0) := by
  refine ⟨fun h => ?_, fun h => ?_, fun h => ?_⟩
  · simp only [sample_laplace]
    rw [if_neg (ne_of_lt h), if_pos h]
  · simp only [sample_laplace]
    rw [if_neg (ne_of_gt h), if_neg (not_lt.mpr (le_of_lt h))]
  · simp only [sample_laplace]
    rw [if_pos h]

/-- Witness for C1 at the concrete draws `u = 1/2`, `u = 1/4`,
`u = 3/4`. -/
theorem laplace_inverse_cdf_cases_witness :
    sample_laplace 1 (1 / 2) = 0 ∧
    sample_laplace 2 (1 / 4) = 2 * Real.log (2 * (1 / 4)) ∧
    sample_laplace 3 (3 / 4) = -3 * Real.log (2 * (1 - 3 / 4)) :=
  ⟨(laplace_inverse_cdf_cases 1 (1 / 2)).2.2 rfl,
   (laplace_inverse_cdf_cases 2 (1 / 4)).1 (by norm_num),
   (laplace_inverse_cdf_cases 3 (3 / 4)).2.1 (by norm_num)⟩

/-- C6: the parser returns at most one record per input line; every
retained record carries the 0-based index of its original line, the
original untrimmed line text, and the exact integer that `stoi` extracts
from the trimmed first comma-separated field of that line; lines that are
empty after trimming, and lines whose first field fails integer parsing,
yield no record. -/
theorem parser_output_sound (lines : List (List Char)) :
    (parse_records lines).length ≤ lines.length ∧
    (∀ r ∈ parse_records lines,
      lines[r.idx]? = some r.line ∧
      parseAge r.line = some r.age ∧
      (trimC r.line).isEmpty = false ∧
      stoiC (trimC ((trimC r.line).takeWhile (fun c => !(c == ',')))) = some r.age) ∧
    (∀ s, (trimC s).isEmpty = true → parseAge s = none) ∧
    (∀ i s, lines[i]? = some s → parseAge s = none →
      ∀ r ∈ parse_records lines, r.idx ≠ i) := by
  refine ⟨length_parseRecAux 0 lines, ?_, fun s h => parseAge_of_trim_empty h, ?_⟩
  · intro r hr
    obtain ⟨j, hj1, hj2, hj3⟩ := mem_parseRecAux hr
    have hidx : r.idx = j := by omega
    exact ⟨by rw [hidx]; exact hj2, hj3,
      (parseAge_eq_some_iff.mp hj3).1, (parseAge_eq_some_iff.mp hj3).2⟩
  · intro i s hi hnone r hr hri
    obtain ⟨j, hj1, hj2, hj3⟩ := mem_parseRecAux hr
    obtain rfl : j = i := by omega
    rw [hi] at hj2
    injection hj2 with hj2
    subst hj2
    simp [hnone] at hj3

/-- Witness for C6 on the concrete input `exB` (which contains the
malformed line `"zzz"`). -/
theorem parser_output_sound_witness :
    (parse_records exB).length ≤ exB.length ∧
    exB[1]? = some "50,b".data ∧
    (⟨1, 50, "50,b".data⟩ : Record).idx ≠ 3 :=
  ⟨(parser_output_sound exB).1,
   ((parser_output_sound exB).2.1 ⟨1, 50, "50,b".data⟩ (by decide)).1,
   (parser_output_sound exB).2.2.2 3 "zzz".data (by decide) (by decide)
     ⟨1, 50, "50,b".data⟩ (by decide)⟩

/-- C2: on every input whose `age > 25` subset is non-empty, the analysis
computes `sensitivity = (max - min) / max(1, m)` with `m` the subset size
and `min` / `max` the observed extrema of the subset, and
`scale = sensitivity / epsilon` (for every `epsilon`, which is not
re-validated here). -/
theorem sensitivity_and_scale (lines : List (List Char)) (epsilon : ℚ)
    (h : agesSubset lines ≠ []) :
    ∃ st, analyze lines epsilon = some st ∧
      st.m = (agesSubset lines).length ∧
      st.minAge ∈ agesSubset lines ∧
      st.maxAge ∈ agesSubset lines ∧
      (∀ a ∈ agesSubset lines, st.minAge ≤ a ∧ a ≤ st.maxAge) ∧
      st.sensitivity = ((st.maxAge - st.minAge : Int) : ℚ) /
        ((max 1 (st.m : Int) : Int) : ℚ) ∧
      st.scale = st.sensitivity / epsilon := by
  obtain ⟨st, hst⟩ := analyze_isSome epsilon h
  obtain ⟨-, hm, -, hmn, hmx, hsens, hscale⟩ := analyze_spec hst
  refine ⟨st, hst, hm, ?_, ?_, ?_, hsens, hscale⟩
  · rw [hmn]
    exact foldl_min_attained h (fun a ha => (mem_agesSubset_bounds ha).2)
  · rw [hmx]
    exact foldl_max_attained h (fun a ha => (mem_agesSubset_bounds ha).1)
  · intro a ha
    rw [hmn, hmx]
    exact ⟨foldl_min_le INT_MAX ha, le_foldl_max INT_MIN ha⟩

/-- Witness for C2 on the concrete input `exA`. -/
theorem sensitivity_and_scale_witness :
    agesSubset exA ≠ [] ∧
    ∃ st, analyze exA 1 = some st ∧
      st.m = (agesSubset exA).length ∧
      st.minAge ∈ agesSubset exA ∧
      st.maxAge ∈ agesSubset exA ∧
      (∀ a ∈ agesSubset exA, st.minAge ≤ a ∧ a ≤ st.maxAge) ∧
      st.sensitivity = ((st.maxAge - st.minAge : Int) : ℚ) /
        ((max 1 (st.m : Int) : Int) : ℚ) ∧
      st.scale = st.sensitivity / 1 :=
  ⟨by decide, sensitivity_and_scale exA 1 (by decide)⟩

/-- C3: on the concrete lines `"30,x"`, `"40,y"`, `"20,z"`, `"26,w"` the
parsed ages are `30, 40, 20, 26`; the `age > 25` subset is `30, 40, 26`
(`m = 3`, average `32`, min `26`, max `40`, sensitivity `14/3`); with
`epsilon = 0.5` the scale is `28/3`; and with `trials = 5` the analysis
emits exactly 5 releases, the `i`-th being `32` plus the Laplace(0, 28/3)
noise obtained from the `i`-th uniform draw. -/
theorem end_to_end_example :
    (parse_records exLines).map (fun r => r.age) = [30, 40, 20, 26] ∧
    agesSubset exLines = [30, 40, 26] ∧
    analyze exLines (1 / 2) = some ⟨3, 32, 26, 40, 14 / 3, 28 / 3⟩ ∧
    ∀ u : ℕ → ℝ,
      run_analysis_on_file exLines (1 / 2) 5 u 0 =
        (some ⟨⟨3, 32, 26, 40, 14 / 3, 28 / 3⟩,
          [(32 : ℝ) + sample_laplace ((28 : ℝ) / 3) (u 0),
           (32 : ℝ) + sample_laplace ((28 : ℝ) / 3) (u 1),
           (32 : ℝ) + sample_laplace ((28 : ℝ) / 3) (u 2),
           (32 : ℝ) + sample_laplace ((28 : ℝ) / 3) (u 3),
           (32 : ℝ) + sample_laplace ((28 : ℝ) / 3) (u 4)]⟩, 5) := by
  have h2 : agesSubset exLines = [30, 40, 26] := by decide
  have h3 : analyze exLines (1 / 2) = some ⟨3, 32, 26, 40, 14 / 3, 28 / 3⟩ := by
    simp [analyze, h2, INT_MAX, INT_MIN]
    norm_num
  refine ⟨by decide, h2, h3, fun u => ?_⟩
  simp only [run_analysis_on_file, h3]
  norm_num [List.range_succ]

/-- C10: when the qualifying subset is non-empty and its observed extrema
coincide, the sensitivity and the noise scale are exactly `0`, and (for
draws strictly inside `(0, 1)`) every release equals the true average. -/
theorem degenerate_subset_zero_noise (lines : List (List Char)) (epsilon : ℚ)
    (trials : Nat) (u : ℕ → ℝ) (pos : Nat) (st : Stats)
    (hst : analyze lines epsilon = some st) (heq : st.maxAge = st.minAge) :
    st.sensitivity = 0 ∧ st.scale = 0 ∧
    ∀ r, (run_analysis_on_file lines epsilon trials u pos).1 = some r →
      (∀ i, 0 < u i ∧ u i < 1) → ∀ x ∈ r.releases, x = (st.avg : ℝ) := by
  obtain ⟨-, -, -, -, -, hsens, hscale⟩ := analyze_spec hst
  have h0 : st.sensitivity = 0 := by
    rw [hsens, heq]
    simp
  have h0s : st.scale = 0 := by
    rw [hscale, h0, zero_div]
  refine ⟨h0, h0s, ?_⟩
  intro r hr hu x hx
  simp only [run_analysis_on_file, hst] at hr
  cases hr
  simp only [List.mem_map] at hx
  obtain ⟨i, -, rfl⟩ := hx
  rw [h0s]
  simp [sample_laplace_zero]

/-- Witness for C10 on the concrete input `exF` (qualifying ages all
`30`). -/
theorem degenerate_subset_zero_noise_witness :
    (⟨2, 30, 30, 30, 0, 0⟩ : Stats).sensitivity = 0 ∧
    (⟨2, 30, 30, 30, 0, 0⟩ : Stats).scale = 0 := by
  have h2 : agesSubset exF = [30, 30] := by decide
  have hst : analyze exF 1 = some ⟨2, 30, 30, 30, 0, 0⟩ := by
    simp [analyze, h2, INT_MAX, INT_MIN]
    norm_num
  exact ⟨(degenerate_subset_zero_noise exF 1 3 (fun j => 1 / 4) 0 _ hst rfl).1,
    (degenerate_subset_zero_noise exF 1 3 (fun j => 1 / 4) 0 _ hst rfl).2.1⟩

/-! ### Lemmas for the variant builder -/

theorem write_filtered_files_eq {lines : List (List Char)}
    (h : parse_records lines ≠ []) :
    write_filtered_files lines = some
      ⟨removeIdxInt (oldestIdxR (parse_records lines)) 0 lines,
       ((parse_records lines).filter (fun r => !(r.age == 26))).map (fun r => r.line),
       removeIdxInt (youngestIdxR (parse_records lines)) 0 lines⟩ := by
  have hlne : lines ≠ [] := by
    intro he
    subst he
    exact h rfl
  simp only [write_filtered_files]
  rw [if_neg (by simpa [List.isEmpty_iff] using hlne),
    if_neg (by simpa [List.isEmpty_iff] using h)]

theorem record_age_bounds {lines : List (List Char)} {r : Record}
    (hr : r ∈ parse_records lines) : INT_MIN ≤ r.age ∧ r.age ≤ INT_MAX := by
  obtain ⟨j, -, -, hp⟩ := mem_parseRecAux hr
  exact parseAge_bounds hp

theorem maxAgeR_eq_map (records : List Record) :
    maxAgeR records = (records.map (fun r => r.age)).foldl max INT_MIN := by
  rw [maxAgeR, List.foldl_map]

theorem minAgeR_eq_map (records : List Record) :
    minAgeR records = (records.map (fun r => r.age)).foldl min INT_MAX := by
  rw [minAgeR, List.foldl_map]

theorem exists_record_maxAge {lines : List (List Char)}
    (h : parse_records lines ≠ []) :
    ∃ r ∈ parse_records lines, r.age = maxAgeR (parse_records lines) := by
  have hmap : (parse_records lines).map (fun r => r.age) ≠ [] := by simpa using h
  have hbd : ∀ a ∈ (parse_records lines).map (fun r => r.age), INT_MIN ≤ a := by
    intro a ha
    obtain ⟨r, hr, rfl⟩ := List.mem_map.mp ha
    exact (record_age_bounds hr).1
  have hmem := foldl_max_attained hmap hbd
  rw [← maxAgeR_eq_map] at hmem
  obtain ⟨r, hr, hre⟩ := List.mem_map.mp hmem
  exact ⟨r, hr, hre⟩

theorem exists_record_minAge {lines : List (List Char)}
    (h : parse_records lines ≠ []) :
    ∃ r ∈ parse_records lines, r.age = minAgeR (parse_records lines) := by
  have hmap : (parse_records lines).map (fun r => r.age) ≠ [] := by simpa using h
  have hbd : ∀ a ∈ (parse_records lines).map (fun r => r.age), a ≤ INT_MAX := by
    intro a ha
    obtain ⟨r, hr, rfl⟩ := List.mem_map.mp ha
    exact (record_age_bounds hr).2
  have hmem := foldl_min_attained hmap hbd
  rw [← minAgeR_eq_map] at hmem
  obtain ⟨r, hr, hre⟩ := List.mem_map.mp hmem
  exact ⟨r, hr, hre⟩

theorem find?_age_firstIdx {lines : List (List Char)} {M : Int}
    (hex : ∃ r ∈ parse_records lines, r.age = M) :
    ∃ k s, firstIdxWith M lines = some k ∧ lines[k]? = some s ∧
      ((parse_records lines).find? (fun r => r.age == M)).map
        (fun r => (r.idx : Int)) = some (k : Int) := by
  obtain ⟨r0, hr0, hage⟩ := hex
  have hfind : (parse_records lines).find? (fun r => r.age == M) ≠ none := by
    intro hn
    rw [List.find?_eq_none] at hn
    exact hn r0 hr0 (by simp [hage])
  obtain ⟨rf, hrf⟩ := Option.ne_none_iff_exists'.mp hfind
  have hcorr : (parse_records lines).find? (fun r => r.age == M) =
      (firstIdxWith M lines).bind
        (fun j => (lines[j]?).map (fun s => ⟨0 + j, M, s⟩)) :=
    find?_parseRecAux 0 lines M
  rw [hrf] at hcorr
  cases hfw : firstIdxWith M lines with
  | none =>
    simp [hfw] at hcorr
  | some k =>
    cases hsk : lines[k]? with
    | none =>
      simp [hfw, hsk] at hcorr
    | some s =>
      simp only [hfw, hsk, Option.some_bind, Option.map_some, Option.some.injEq] at hcorr
      refine ⟨k, s, rfl, hsk, ?_⟩
      rw [hrf]
      simp [hcorr]

/-- C4: whenever at least one record parses, the `MinusOldest` (resp.
`MinusYoungest`) variant is exactly the raw line sequence with the single
line at position `k` erased, where `k` is the first position (in file
order) whose parsed age equals the global maximum (resp. minimum) of the
parsed ages; all other lines — malformed and empty ones included — are
kept verbatim in order, and later ties survive. -/
theorem minus_oldest_and_youngest (lines : List (List Char))
    (h : parse_records lines ≠ []) :
    ∃ v, write_filtered_files lines = some v ∧
      (∀ r ∈ parse_records lines,
        minAgeR (parse_records lines) ≤ r.age ∧
        r.age ≤ maxAgeR (parse_records lines)) ∧
      (∃ k, firstIdxWith (maxAgeR (parse_records lines)) lines = some k ∧
        k < lines.length ∧
        (∀ s, lines[k]? = some s →
          parseAge s = some (maxAgeR (parse_records lines))) ∧
        (∀ j, j < k → ∀ s, lines[j]? = some s →
          parseAge s ≠ some (maxAgeR (parse_records lines))) ∧
        v.minusOldest = lines.eraseIdx k) ∧
      (∃ k, firstIdxWith (minAgeR (parse_records lines)) lines = some k ∧
        k < lines.length ∧
        (∀ s, lines[k]? = some s →
          parseAge s = some (minAgeR (parse_records lines))) ∧
        (∀ j, j < k → ∀ s, lines[j]? = some s →
          parseAge s ≠ some (minAgeR (parse_records lines))) ∧
        v.minusYoungest = lines.eraseIdx k) := by
  refine ⟨_, write_filtered_files_eq h, ?_, ?_, ?_⟩
  · intro r hr
    have hmem : r.age ∈ (parse_records lines).map (fun r => r.age) :=
      List.mem_map.mpr ⟨r, hr, rfl⟩
    rw [minAgeR_eq_map, maxAgeR_eq_map]
    exact ⟨foldl_min_le INT_MAX hmem, le_foldl_max INT_MIN hmem⟩
  · obtain ⟨k, s, hfw, hsk, hidx⟩ := find?_age_firstIdx (exists_record_maxAge h)
    obtain ⟨hlen, ⟨s1, hs1, hp1⟩, hprev⟩ := firstIdxWith_spec hfw
    refine ⟨k, hfw, hlen, ?_, hprev, ?_⟩
    · intro s2 h2
      rw [hs1] at h2
      injection h2 with h2
      subst h2
      exact hp1
    · show removeIdxInt (oldestIdxR (parse_records lines)) 0 lines = lines.eraseIdx k
      have hold : oldestIdxR (parse_records lines) = (k : Int) := by
        rw [oldestIdxR, hidx]
        rfl
      rw [hold]
      simpa using removeIdxInt_eq_eraseIdx lines 0 k
  · obtain ⟨k, s, hfw, hsk, hidx⟩ := find?_age_firstIdx (exists_record_minAge h)
    obtain ⟨hlen, ⟨s1, hs1, hp1⟩, hprev⟩ := firstIdxWith_spec hfw
    refine ⟨k, hfw, hlen, ?_, hprev, ?_⟩
    · intro s2 h2
      rw [hs1] at h2
      injection h2 with h2
      subst h2
      exact hp1
    · show removeIdxInt (youngestIdxR (parse_records lines)) 0 lines = lines.eraseIdx k
      have hyoung : youngestIdxR (parse_records lines) = (k : Int) := by
        rw [youngestIdxR, hidx]
        rfl
      rw [hyoung]
      simpa using removeIdxInt_eq_eraseIdx lines 0 k

/-- Witness for C4 on the concrete input `exB` (max tie on lines 1 and 2,
min tie on lines 0 and 4, malformed line 3). -/
theorem minus_oldest_and_youngest_witness :
    parse_records exB ≠ [] ∧
    ∃ v, write_filtered_files exB = some v ∧
      (∀ r ∈ parse_records exB,
        minAgeR (parse_records exB) ≤ r.age ∧
        r.age ≤ maxAgeR (parse_records exB)) ∧
      (∃ k, firstIdxWith (maxAgeR (parse_records exB)) exB = some k ∧
        k < exB.length ∧
        (∀ s, exB[k]? = some s →
          parseAge s = some (maxAgeR (parse_records exB))) ∧
        (∀ j, j < k → ∀ s, exB[j]? = some s →
          parseAge s ≠ some (maxAgeR (parse_records exB))) ∧
        v.minusOldest = exB.eraseIdx k) ∧
      (∃ k, firstIdxWith (minAgeR (parse_records exB)) exB = some k ∧
        k < exB.length ∧
        (∀ s, exB[k]? = some s →
          parseAge s = some (minAgeR (parse_records exB))) ∧
        (∀ j, j < k → ∀ s, exB[j]? = some s →
          parseAge s ≠ some (minAgeR (parse_records exB))) ∧
        v.minusYoungest = exB.eraseIdx k) :=
  ⟨by decide, minus_oldest_and_youngest exB (by decide)⟩

/-- C5: whenever at least one record parses, the `MinusAge26` variant is
built from the parsed records alone: it is exactly the raw text of the
records whose age is not `26`, in original file order; every surviving
line parses to an age different from `26`, so no age-26 record and no
unparseable line occurs in it. -/
theorem minus_age26_from_records (lines : List (List Char))
    (h : parse_records lines ≠ []) :
    ∃ v, write_filtered_files lines = some v ∧
      v.minusAge26 =
        ((parse_records lines).filter (fun r => !(r.age == 26))).map (fun r => r.line) ∧
      (∀ s ∈ v.minusAge26, ∃ a, parseAge s = some a ∧ a ≠ 26) ∧
      (∀ r ∈ parse_records lines, r.age ≠ 26 → r.line ∈ v.minusAge26) := by
  refine ⟨_, write_filtered_files_eq h, rfl, ?_, ?_⟩
  · intro s hs
    simp only [List.mem_map, List.mem_filter] at hs
    obtain ⟨r, ⟨hr, hr26⟩, rfl⟩ := hs
    obtain ⟨j, -, -, hp⟩ := mem_parseRecAux hr
    exact ⟨r.age, hp, by simpa using hr26⟩
  · intro r hr hne
    simp only [List.mem_map]
    exact ⟨r, List.mem_filter.mpr ⟨hr, by simpa using hne⟩, rfl⟩

/-- Witness for C5 on the concrete input `exB` (whose last record has age
26). -/
theorem minus_age26_from_records_witness :
    parse_records exB ≠ [] ∧
    ∃ v, write_filtered_files exB = some v ∧
      v.minusAge26 =
        ((parse_records exB).filter (fun r => !(r.age == 26))).map (fun r => r.line) ∧
      (∀ s ∈ v.minusAge26, ∃ a, parseAge s = some a ∧ a ≠ 26) ∧
      (∀ r ∈ parse_records exB, r.age ≠ 26 → r.line ∈ v.minusAge26) :=
  ⟨by decide, minus_age26_from_records exB (by decide)⟩

/-- C7: when no record satisfies `age > 25`, `run_analysis_on_file`
signals failure — it returns no statistics and no releases and leaves the
random cursor untouched — and the driver loop still processes all the
remaining datasets of its list. -/
theorem empty_qualifying_subset_fails (lines : List (List Char)) (epsilon : ℚ)
    (trials : Nat) (u : ℕ → ℝ) (pos : Nat) (h : agesSubset lines = []) :
    run_analysis_on_file lines epsilon trials u pos = (none, pos) ∧
    ∀ ds, runAll epsilon trials u (some lines :: ds) pos =
      none :: runAll epsilon trials u ds pos := by
  have hn : analyze lines epsilon = none := by
    simp [analyze, h]
  constructor
  · simp [run_analysis_on_file, hn]
  · intro ds
    simp [runAll, run_analysis_on_file, hn]

/-- Witness for C7 on the concrete input `exD` (single record, age 20). -/
theorem empty_qualifying_subset_fails_witness :
    run_analysis_on_file exD 1 2 (fun _ => 0) 0 = (none, 0) ∧
    runAll 1 2 (fun _ => 0) [some exD] 0 =
      none :: runAll 1 2 (fun _ => 0) [] 0 :=
  ⟨(empty_qualifying_subset_fails exD 1 2 (fun _ => 0) 0 (by decide)).1,
   (empty_qualifying_subset_fails exD 1 2 (fun _ => 0) 0 (by decide)).2 []⟩

/-- C8: when no line parses to a record, the variant builder produces no
variant files at all (it returns before removing anything), and this is
non-fatal: the driver still runs all four analyses (which then all fail on
their own, since the variant files are missing and the original has no
qualifying record). -/
theorem no_parseable_records_no_variants (lines : List (List Char))
    (epsilon : ℚ) (trials : Nat) (u : ℕ → ℝ)
    (h : parse_records lines = []) :
    write_filtered_files lines = none ∧
    datasetsOf lines = [some lines, none, none, none] ∧
    pipelineResults lines epsilon trials u = [none, none, none, none] := by
  have hw : write_filtered_files lines = none := by
    simp only [write_filtered_files]
    by_cases hl : lines.isEmpty
    · rw [if_pos hl]
    · rw [if_neg hl, if_pos (by simp [h])]
  have hages : agesSubset lines = [] := agesSubset_nil_of_parse_nil h
  have hn : analyze lines epsilon = none := by
    simp [analyze, hages]
  refine ⟨hw, by simp [datasetsOf, hw], ?_⟩
  simp [pipelineResults, datasetsOf, hw, runAll, run_analysis_on_file, hn]

/-- Witness for C8 on the concrete input `exE` (a malformed line and a
blank line). -/
theorem no_parseable_records_no_variants_witness :
    write_filtered_files exE = none ∧
    datasetsOf exE = [some exE, none, none, none] ∧
    pipelineResults exE 1 2 (fun _ => 0) = [none, none, none, none] :=
  no_parseable_records_no_variants exE 1 2 (fun _ => 0) (by decide)

/-- C9: the uniform source is one shared stream for the whole run: the
pipeline output is a function of the seed stream alone (two runs over
equal streams and equal inputs produce identical release sequences for
every output file); each analysis in the driver list hands the advanced
cursor to the next one; a successful analysis consumes exactly `trials`
successive draws `u pos, …, u (pos + trials - 1)` — successive,
non-overlapping values of the single stream — and a failed one consumes
none. -/
theorem shared_stream_pipeline :
    (∀ (lines : List (List Char)) (epsilon : ℚ) (trials : Nat) (u v : ℕ → ℝ),
      (∀ i, u i = v i) →
      pipelineResults lines epsilon trials u = pipelineResults lines epsilon trials v) ∧
    (∀ (epsilon : ℚ) (trials : Nat) (u : ℕ → ℝ) (d : Option (List (List Char)))
      (ds : List (Option (List (List Char)))) (pos : Nat),
      runAll epsilon trials u (d :: ds) pos =
        match d with
        | none => none :: runAll epsilon trials u ds pos
        | some l =>
            (run_analysis_on_file l epsilon trials u pos).1 ::
              runAll epsilon trials u ds ((run_analysis_on_file l epsilon trials u pos).2)) ∧
    (∀ (lines : List (List Char)) (epsilon : ℚ) (trials : Nat) (u : ℕ → ℝ) (pos : Nat),
      ((run_analysis_on_file lines epsilon trials u pos).1 = none →
        (run_analysis_on_file lines epsilon trials u pos).2 = pos) ∧
      (∀ r, (run_analysis_on_file lines epsilon trials u pos).1 = some r →
        (run_analysis_on_file lines epsilon trials u pos).2 = pos + trials ∧
        r.releases = (List.range trials).map
          (fun i => (r.stats.avg : ℝ) + sample_laplace (r.stats.scale : ℝ) (u (pos + i))))) := by
  refine ⟨?_, ?_, ?_⟩
  · intro lines epsilon trials u v huv
    rw [funext huv]
  · intro epsilon trials u d ds pos
    cases d <;> simp [runAll]
  · intro lines epsilon trials u pos
    constructor
    · intro h1
      cases hA : analyze lines epsilon with
      | none => simp [run_analysis_on_file, hA]
      | some st => simp [run_analysis_on_file, hA] at h1
    · intro r hr
      cases hA : analyze lines epsilon with
      | none => simp [run_analysis_on_file, hA] at hr
      | some st =>
        simp only [run_analysis_on_file, hA] at hr ⊢
        cases hr
        simp

/-- Witness for C9: determinism at a concrete stream and input, and the
no-consumption case at a failing input. -/
theorem shared_stream_pipeline_witness :
    pipelineResults exA 1 1 (fun _ => 0) = pipelineResults exA 1 1 (fun _ => 0) ∧
    (run_analysis_on_file exD 1 1 (fun _ => 0) 0).2 = 0 :=
  ⟨shared_stream_pipeline.1 exA 1 1 (fun _ => 0) (fun _ => 0) (fun i => rfl),
   (shared_stream_pipeline.2.2 exD 1 1 (fun _ => 0) 0).1
     (by simp [run_analysis_on_file, analyze, show agesSubset exD = [] from by decide])⟩

end NoisyAverage
